import Mathlib

/-!
Verification of the incremental tree-reconciliation engine ("Fiber" simulation)
found in this repository, against its natural-language specification.

The engine appears in two closely related variants:
  * `src/unnamed/part_001` — the "mini React" page (reconciliation + hooks); and
  * `src/mini-react/gemini.html` — the "Fiber simulation" page.
The shallow embedding below translates the render-phase and commit-phase
functions of these scripts into Lean.  JavaScript objects become inductive
types, the DOM becomes an explicit association list of nodes, mutation becomes
state passing, and the global work loop becomes a run-to-completion state
transformer (both sources drive the loop until no unit of work remains before
committing).  Functions carry a `P` suffix when they translate `part_001` and a
`G` suffix when they translate `gemini.html`; unsuffixed definitions are shared
by both sources verbatim.
-/

/-! ## JavaScript primitive values

Attribute values flowing through the engine are primitives (strings, numbers,
null).  `jsString` models JavaScript's `String(x)` conversion on them. -/

inductive JVal where
  | str (s : String)
  | num (n : Int)
  | nul
deriving DecidableEq, Repr

def jsString : JVal → String
  | .str s => s
  | .num n => toString n
  | .nul => "null"

/-- Attribute mapping of a description node or fiber: the `props` object minus
its `children` entry, which both sources split off structurally (`isProperty`
filters `children` out everywhere, and `children` is consumed only by the
reconciler). -/

abbrev Attrs := List (String × JVal)

/-! ## Element builder (`createElement` / `createTextElement`)

For the builder we need untyped JavaScript values: a child argument can be a
description node, a raw primitive, `null`, or an array of children.
`RawVal.node` plays the role of a plain `{ type, props, children }` object. -/

inductive RawVal where
  | str (s : String)
  | num (n : Int)
  | nul
  | arr (xs : List RawVal)
  | node (type : String) (props : List (String × RawVal)) (children : List RawVal)

/-- `typeof child === "object"` — true for objects, arrays and `null`. -/

def isObjectR : RawVal → Bool
  | .nul => true
  | .arr _ => true
  | .node _ _ _ => true
  | _ => false

/-- `typeof child === "object" && child !== null`, the keep-as-is test in
`gemini.html`'s `createElement`. -/

def isNonNullObject : RawVal → Bool
  | .arr _ => true
  | .node _ _ _ => true
  | _ => false

/-- `String(text)` as applied by `gemini.html`'s `createTextElement`; it is
only ever reached on non-object children, so the object cases are vacuous. -/

def jsStringR : RawVal → String
  | .str s => s
  | .num n => toString n
  | .nul => "null"
  | .arr _ => ""
  | .node _ _ _ => ""

/-- `children.flat()` — one level of array flattening (gemini.html line 58). -/

def flat1 : List RawVal → List RawVal
  | [] => []
  | .arr xs :: rest => xs ++ flat1 rest
  | x :: rest => x :: flat1 rest

/-- `createTextElement` of `gemini.html`: wraps a stringified value, no
children. -/

def createTextElementG (t : RawVal) : RawVal :=
  .node "TEXT_ELEMENT" [("nodeValue", .str (jsStringR t))] []

/-- `createElement` of `gemini.html`: flattens children one level, keeps
non-null objects, wraps everything else into a text element. -/

def createElementG (type : String) (props : List (String × RawVal))
    (children : List RawVal) : RawVal :=
  .node type props
    ((flat1 children).map fun c =>
      if isNonNullObject c then c else createTextElementG c)

/-- `createTextElement` of `part_001`: stores the raw value without
stringification. -/

def createTextElementP (t : RawVal) : RawVal :=
  .node "TEXT_ELEMENT" [("nodeValue", t)] []

/-- `createElement` of `part_001`: no flattening; anything of object type
(including arrays and `null`) is kept as-is. -/

def createElementP (type : String) (props : List (String × RawVal))
    (children : List RawVal) : RawVal :=
  .node type props
    (children.map fun c => if isObjectR c then c else createTextElementP c)

/-! ## Description nodes and fibers

`Element` is a well-formed description node as produced by the builder on
element/text children: `type`, the attribute part of `props`, and the
`props.children` list.  `Fiber` is a work node: `dom` is the presentation
handle (a `Nat` naming a DOM node), `tag` the `effectTag` disposition
(`none` = no disposition), `alt` the `alternate` back-reference to the fiber
previously committed at this position, and `children` the `child`/`sibling`
linked list of child fibers, represented as a Lean list. -/

inductive Element where
  | mk (type : String) (attrs : Attrs) (children : List Element)

def Element.type : Element → String
  | .mk t _ _ => t

def Element.attrs : Element → Attrs
  | .mk _ a _ => a

def Element.children : Element → List Element
  | .mk _ _ cs => cs

inductive Tag where
  | placement
  | update
  | deletion
deriving DecidableEq, Repr

inductive Fiber where
  | mk (type : String) (attrs : Attrs) (dom : Option Nat) (tag : Option Tag)
       (alt : Option Fiber) (children : List Fiber)

def Fiber.type : Fiber → String
  | .mk t _ _ _ _ _ => t

def Fiber.attrs : Fiber → Attrs
  | .mk _ a _ _ _ _ => a

def Fiber.dom : Fiber → Option Nat
  | .mk _ _ d _ _ _ => d

def Fiber.tag : Fiber → Option Tag
  | .mk _ _ _ tg _ _ => tg

def Fiber.alt : Fiber → Option Fiber
  | .mk _ _ _ _ al _ => al

def Fiber.children : Fiber → List Fiber
  | .mk _ _ _ _ _ cs => cs

/-- `oldFiber.effectTag = ...` as an in-place mutation of the old tree node. -/

def Fiber.withTag (f : Fiber) (t : Option Tag) : Fiber :=
  match f with
  | .mk ty a d _ al cs => .mk ty a d t al cs

/-- `fiber.alternate ? fiber.alternate.props : {}` (part_001 line 301). -/

def Fiber.altAttrs (f : Fiber) : Attrs :=
  match f.alt with
  | some a => a.attrs
  | none => []

/-! ## Reconciler (`reconcileChildren`, part_001 lines 157-220 / gemini lines 190-250)

The loop walks the new description children in parallel with the old child
fibers (`alternate.child` / `.sibling`, here a Lean list).  `Proto` records the
fields the loop assigns to a produced `newFiber` before the scheduler later
processes it (`parent` is the structural back-pointer and is represented by the
tree structure itself; the element's `children` ride along in `props` in the
sources and are kept explicitly here for the scheduler's recursion). -/

structure Proto where
  ptype : String
  pattrs : Attrs
  pchildren : List Element
  pdom : Option Nat
  palt : Option Fiber
  ptag : Tag

/-- `const sameType = oldFiber && element && element.type === oldFiber.type`. -/

def sameKind (o? : Option Fiber) (e? : Option Element) : Bool :=
  match o?, e? with
  | some o, some e => e.type == o.type
  | _, _ => false

/-- The `newFiber` produced for a present `element`: the UPDATE object when the
kinds match, the PLACEMENT object otherwise. -/

def protoFor (o? : Option Fiber) (e : Element) : Proto :=
  match o? with
  | some o =>
    if e.type == o.type then
      ⟨o.type, e.attrs, e.children, o.dom, some o, .update⟩
    else
      ⟨e.type, e.attrs, e.children, none, none, .placement⟩
  | none => ⟨e.type, e.attrs, e.children, none, none, .placement⟩

/-- `oldFiber.effectTag = "DELETION"`. -/

def markDeleted (f : Fiber) : Fiber := f.withTag (some .deletion)

/-- One `reconcileChildren` call over the old child fibers and the new child
elements: first component is the `newFiber` produced at each element index (the
loop links these as `child`/`sibling`), second component is what the loop
appends to the global `deletions` list, in push order. -/

def reconcile : List Fiber → List Element → List Proto × List Fiber
  | [], [] => ([], [])
  | o :: os, [] =>
    let (ps, ds) := reconcile os []
    (ps, markDeleted o :: ds)
  | [], e :: es =>
    let (ps, ds) := reconcile [] es
    (protoFor none e :: ps, ds)
  | o :: os, e :: es =>
    let (ps, ds) := reconcile os es
    (protoFor (some o) e :: ps,
     if e.type == o.type then ds else markDeleted o :: ds)

/-- The deletion decision of iteration `j`, read off directly from the claim:
the old fiber at `j` is marked and pushed exactly when it exists and either the
new child at `j` is missing or the kinds differ. -/

def delAt (olds : List Fiber) (els : List Element) (j : Nat) : Option Fiber :=
  match olds.get? j with
  | some o => if sameKind (some o) (els.get? j) then none else some (markDeleted o)
  | none => none

/-! ## Sibling linking safety (part_001 lines 199-218)

After computing `newFiber`, the loop links it: `wipFiber.child = newFiber`
at index 0, and `prevSibling.sibling = newFiber` at later indices whenever the
element is present — an unguarded dereference of `prevSibling` in `part_001`
(gemini additionally tests `prevSibling`).  `linkCrash` runs the same
iteration structure and reports whether the dereference ever hits a null
`prevSibling`; `prev` carries the `prevSibling = newFiber` assignment made at
the end of the previous iteration. -/

def linkCrash : List Fiber → List Element → Nat → Option Proto → Bool
  | [], [], _, _ => false
  | [], e :: es, idx, prev =>
    (decide (idx ≠ 0) && prev.isNone) ||
      linkCrash [] es (idx + 1) (some (protoFor none e))
  | _ :: os, [], idx, _ =>
    linkCrash os [] (idx + 1) none
  | o :: os, e :: es, idx, prev =>
    (decide (idx ≠ 0) && prev.isNone) ||
      linkCrash os es (idx + 1) (some (protoFor (some o) e))

/-! ## Unit-of-work traversal (`performUnitOfWork`, part_001 lines 232-243 /
gemini lines 148-159)

Fibers in the work tree are addressed by paths of child indices from the
work-in-progress root.  The pointer structure of the sources maps to paths as
follows: `fiber.child` is `p ++ [0]`, `fiber.parent` is `p.dropLast`, and
`fiber.sibling` bumps the last index (present only when a fiber exists
there). -/

def subtreeAt : Fiber → List Nat → Option Fiber
  | f, [] => some f
  | f, i :: p =>
    match f.children.get? i with
    | some c => subtreeAt c p
    | none => none

/-- `fiber.sibling` for the fiber at `p`: the next index at the same parent,
when occupied.  The root fiber (`p = []`) has no sibling. -/

def siblingOf (root : Fiber) (p : List Nat) : Option (List Nat) :=
  match p.getLast? with
  | none => none
  | some i =>
    let q := p.dropLast ++ [i + 1]
    match subtreeAt root q with
    | some _ => some q
    | none => none

/-- The `while (nextFiber) { if (nextFiber.sibling) return nextFiber.sibling;
nextFiber = nextFiber.parent }` loop: starting at `p` itself, return the first
sibling found while walking up; at the root both `sibling` and `parent` are
absent and the loop returns nothing. -/

def upFrom (root : Fiber) (p : List Nat) : Option (List Nat) :=
  match p with
  | [] => none
  | a :: as =>
    match siblingOf root (a :: as) with
    | some q => some q
    | none => upFrom root (a :: as).dropLast
termination_by p.length
decreasing_by simp [List.length_dropLast]

/-- `performUnitOfWork`'s next-unit computation: prefer the first child, else
walk up for a sibling. -/

def nextUnitOf (root : Fiber) (p : List Nat) : Option (List Nat) :=
  match subtreeAt root p with
  | some f => if f.children.isEmpty then upFrom root p else some (p ++ [0])
  | none => none

/-- The chain `p`, `p.parent`, `p.parent.parent`, …, root. -/

def ancestorsOf : List Nat → List (List Nat)
  | [] => [[]]
  | a :: as => (a :: as) :: ancestorsOf (a :: as).dropLast
termination_by p => p.length
decreasing_by simp [List.length_dropLast]

/-- The claim's traversal rule, stated declaratively: if the fiber has a first
child, the next unit is that child; otherwise the next unit is the first
`nextSibling` found on the chain of ancestors (starting at the fiber itself);
if the root is reached without finding one, no work remains. -/

def nextUnitSpec (root : Fiber) (p : List Nat) : Option (List Nat) :=
  match subtreeAt root p with
  | some f =>
    if f.children.isEmpty then (ancestorsOf p).findSome? (siblingOf root)
    else some (p ++ [0])
  | none => none

/-! ## The live presentation tree (DOM double)

A DOM node holds the properties assigned by `dom[name] = value`, the event
listeners registered via `addEventListener`, and its child handles in order.
The whole tree is an association list from handle to node; handle 0 is the
`#root` container. -/

structure DomNode where
  props : Attrs
  listeners : List (String × JVal)
  kids : List Nat
deriving DecidableEq, Repr

abbrev Dom := List (Nat × DomNode)

def emptyNode : DomNode := ⟨[], [], []⟩

def domGet (d : Dom) (h : Nat) : DomNode :=
  (d.lookup h).getD emptyNode

def domMap (d : Dom) (h : Nat) (g : DomNode → DomNode) : Dom :=
  d.map fun e => if e.1 = h then (e.1, g e.2) else e

/-- `appendChild`: a node already attached somewhere is moved — it is removed
from its current parent's child list, then appended at the end of the new
parent's. -/

def domAppendKid (d : Dom) (pd h : Nat) : Dom :=
  (d.map fun e => (e.1, { e.2 with kids := e.2.kids.filter (· ≠ h) })).map
    fun e => if e.1 = pd then (e.1, { e.2 with kids := e.2.kids ++ [h] }) else e

def domRemoveKid (d : Dom) (pd h : Nat) : Dom :=
  domMap d pd fun n => { n with kids := n.kids.filter (· ≠ h) }

/-! ## Attribute diffing (`updateDomProperties`, part_001 lines 98-135)

`isEvent` and `isProperty` classify prop names; `children` never appears in an
`Attrs` value (see `Attrs`), so `isProperty` reduces to "not an event".
Lookups model `prevProps[key]`/`key in nextProps`; primitive values compare by
value, matching `===` on strings and numbers. -/

def isEvent (k : String) : Bool := k.startsWith "on"

def isProperty (k : String) : Bool := !isEvent k

def isNewAt (prev next : Attrs) (k : String) : Bool :=
  prev.lookup k != next.lookup k

def isGoneAt (next : Attrs) (k : String) : Bool :=
  (next.lookup k).isNone

/-- `name.toLowerCase().substring(2)` — the event type of an `onX` key. -/

def eventType (k : String) : String := (k.toLower).drop 2

/-- JavaScript property assignment `dom[name] = value`. -/

def setProp (ps : Attrs) (k : String) (v : JVal) : Attrs :=
  if (ps.lookup k).isSome then ps.map fun e => if e.1 = k then (k, v) else e
  else ps ++ [(k, v)]

/-- `removeEventListener(type, handler)`: drops the first matching
registration. -/

def removeListener (ls : List (String × JVal)) (ev : String) (handler : JVal) :
    List (String × JVal) :=
  match ls with
  | [] => []
  | l :: rest =>
    if l.1 = ev ∧ l.2 = handler then rest else l :: removeListener rest ev handler

/-- `updateDomProperties(dom, prevProps, nextProps)` of `part_001`: remove old
properties gone from the next props (set to `""`), unregister removed or
changed event listeners, set new or changed properties, register new or
changed event listeners — in that order. -/

def updateDomProperties (node : DomNode) (prev next : Attrs) : DomNode :=
  let node1 :=
    ((prev.map Prod.fst).filter fun k => isProperty k && isGoneAt next k).foldl
      (fun n k => { n with props := setProp n.props k (.str "") }) node
  let node2 :=
    ((prev.map Prod.fst).filter fun k =>
        isEvent k && ((next.lookup k).isNone || isNewAt prev next k)).foldl
      (fun n k =>
        { n with listeners :=
            removeListener n.listeners (eventType k) ((prev.lookup k).getD .nul) })
      node1
  let node3 :=
    ((next.map Prod.fst).filter fun k => isProperty k && isNewAt prev next k).foldl
      (fun n k => { n with props := setProp n.props k ((next.lookup k).getD .nul) })
      node2
  ((next.map Prod.fst).filter fun k => isEvent k && isNewAt prev next k).foldl
    (fun n k =>
      { n with listeners := n.listeners ++ [(eventType k, (next.lookup k).getD .nul)] })
    node3

/-! ## DOM node creation (`createDom`, part_001 lines 138-146)

`document.createTextNode("")`/`document.createElement(type)` allocate a fresh
node; handles are allocated from a counter threaded through the render phase in
the order the scheduler processes fibers.  The new node then receives the
fiber's props via `updateDomProperties(dom, {}, fiber.props)`. -/

def createDom (attrs : Attrs) (h : Nat) (d : Dom) : Dom :=
  d ++ [(h, updateDomProperties emptyNode [] attrs)]

/-- `if (!fiber.dom) fiber.dom = createDom(fiber)` in `updateHostComponent`:
an update fiber keeps its reused handle; a placement fiber gets a fresh one. -/

def allocDom (dom? : Option Nat) (attrs : Attrs) (ctr : Nat) (d : Dom) :
    Nat × Nat × Dom :=
  match dom? with
  | some h => (h, ctr, d)
  | none => (ctr, ctr + 1, createDom attrs ctr d)

/-! ## Render phase

`runKids` is the net effect of the work loop on the children of one fiber: for
each new child element it builds the child fiber with the fields assigned by
`reconcileChildren` (see `protoFor`), creates its DOM node if needed, and
recurses — exactly the scheduler's child-before-sibling order, which also
fixes the handle-allocation order and the order of `deletions` pushes.

A deletion entry records what `commitWork` will see for a deleted old fiber:
the parent DOM handle that the commit-time `parent` walk resolves to (the old
parent's handle, equal to the new parent's because update fibers reuse
handles), and the suffix of the old child list starting at the deleted fiber —
`commitWork` recurses through `fiber.child` and `fiber.sibling`, so processing
a deleted fiber visits its whole subtree and its following siblings.
`levelDels` computes the retagged old list (the loop mutates
`oldFiber.effectTag` in place) together with these entries, in push order. -/

def levelDels (pd : Nat) : List Fiber → List Element → List Fiber × List (Nat × List Fiber)
  | [], _ => ([], [])
  | o :: os, els =>
    let (os', es') := levelDels pd os els.tail
    if sameKind (some o) els.head? then (o :: os', es')
    else (markDeleted o :: os', (pd, markDeleted o :: os') :: es')

mutual
/-- `performUnitOfWork` on one produced child fiber: create its DOM node if it
has none, reconcile its children against its predecessor's children, recurse.
`o?` is the old fiber at this position (the predecessor candidate). -/
def runFiber (o? : Option Fiber) (e : Element) (ctr : Nat) (d : Dom) :
    Fiber × Nat × Dom × List (Nat × List Fiber) :=
  match e with
  | .mk ty a cs =>
    let p := protoFor o? (.mk ty a cs)
    let (h, ctr1, d1) := allocDom p.pdom p.pattrs ctr d
    let oldKids := match p.palt with
      | some x => x.children
      | none => []
    let (_, chEntries) := levelDels h oldKids cs
    let (chKids, ctr2, d2, chSub) := runKids oldKids cs ctr1 d1
    (Fiber.mk p.ptype p.pattrs (some h) (some p.ptag) p.palt chKids,
     ctr2, d2, chEntries ++ chSub)

def runKids (olds : List Fiber) (els : List Element) (ctr : Nat) (d : Dom) :
    List Fiber × Nat × Dom × List (Nat × List Fiber) :=
  match els with
  | [] => ([], ctr, d, [])
  | e :: es =>
    let (f, ctr2, d2, ds) := runFiber olds.head? e ctr d
    let (rest, ctr3, d3, ds2) := runKids olds.tail es ctr2 d2
    (f :: rest, ctr3, d3, ds ++ ds2)
end

/-- One fiber's `reconcileChildren` plus the scheduler's recursion into the
produced children: the node-level deletion entries precede all entries pushed
while the child subtrees are processed. -/

def runChildren (pd : Nat) (olds : List Fiber) (els : List Element) (ctr : Nat)
    (d : Dom) : List Fiber × Nat × Dom × List (Nat × List Fiber) :=
  let (_, entries) := levelDels pd olds els
  let (ks, ctr', d', sub) := runKids olds els ctr d
  (ks, ctr', d', entries ++ sub)

/-! ## Render-pass state (the globals of part_001 lines 148-154)

`Wip.fresh` is the `wipRoot` object as `render` creates it (its `props.children`
and `alternate`; no child fibers yet, `nextUnitOfWork = wipRoot`); `Wip.done`
is the same root after the work loop has exhausted all units.  `committedRoot`
is `currentRoot`, `deletions` the global deletion list, `dom` the live tree,
`ctr` the handle allocator.  Handle 0 is the container passed to `render`. -/

inductive Wip where
  | fresh (els : List Element) (alt : Option Fiber)
  | done (root : Fiber)

structure EngState where
  committedRoot : Option Fiber
  wip : Option Wip
  deletions : List (Nat × List Fiber)
  dom : Dom
  ctr : Nat

def rootH : Nat := 0

/-- The container's initial presentation tree: just the `#root` node. -/

def initDom : Dom := [(rootH, emptyNode)]

def initState : EngState :=
  { committedRoot := none, wip := none, deletions := [], dom := initDom, ctr := 1 }

/-- `render(element, container)` (part_001 lines 360-371): build a fresh
`wipRoot` whose `props.children` is `[element]` and whose `alternate` is
`currentRoot`, reset `deletions`, set `nextUnitOfWork = wipRoot`.  Nothing is
checked: an in-flight pass is silently overwritten. -/

def render (el : Element) (st : EngState) : EngState :=
  { st with wip := some (.fresh [el] st.committedRoot), deletions := [] }

/-- The `while (nextUnitOfWork) { nextUnitOfWork = performUnitOfWork(...) }`
loop run to completion: process the root (its DOM, the container, already
exists) and every descendant unit. -/

def completePass (st : EngState) : EngState :=
  match st.wip with
  | some (.fresh els alt) =>
    let oldKids := match alt with
      | some r => r.children
      | none => []
    let (kids, ctr', d', dels) := runChildren rootH oldKids els st.ctr st.dom
    { st with wip := some (.done (Fiber.mk "ROOT" [] (some rootH) none alt kids)),
              dom := d', ctr := ctr', deletions := st.deletions ++ dels }
  | _ => st

/-! ## Commit phase (part_001 lines 269-321, gemini lines 257-334)

`commitDeletionP` translates `part_001`'s `commitDeletion`: an unconditional
`domParent.removeChild(fiber.dom)`, which throws (modelled as `.error ()`)
when the node is not among the parent's children; a fiber with no DOM node
recurses into its first child.  `commitDeletionG` translates `gemini.html`'s
variant, which guards the removal with `domParent.contains(fiber.dom)` and
silently does nothing otherwise.  (In every state this engine reaches, a
fiber's node is attached as a direct child of the resolved parent handle or
not attached at all, so direct-child membership models `contains`.) -/

def domHasKid (d : Dom) (pd h : Nat) : Bool := h ∈ (domGet d pd).kids

mutual
def commitDeletionP (f : Fiber) (pd : Nat) (d : Dom) : Except Unit Dom :=
  match f with
  | .mk _ _ (some h) _ _ _ =>
    if domHasKid d pd h then .ok (domRemoveKid d pd h) else .error ()
  | .mk _ _ none _ _ cs => commitDeletionHeadP cs pd d

/-- `else if (fiber.child) commitDeletion(fiber.child, domParent)`. -/
def commitDeletionHeadP (cs : List Fiber) (pd : Nat) (d : Dom) : Except Unit Dom :=
  match cs with
  | c :: _ => commitDeletionP c pd d
  | [] => .ok d
end

mutual
def commitDeletionG (f : Fiber) (pd : Nat) (d : Dom) : Dom :=
  match f with
  | .mk _ _ (some h) _ _ _ => if domHasKid d pd h then domRemoveKid d pd h else d
  | .mk _ _ none _ _ cs => commitDeletionHeadG cs pd d

def commitDeletionHeadG (cs : List Fiber) (pd : Nat) (d : Dom) : Dom :=
  match cs with
  | c :: _ => commitDeletionG c pd d
  | [] => d
end

/-- The effect-tag dispatch of `commitWork` (part_001 lines 296-306) on one
fiber, given the resolved parent DOM handle. -/

def commitOneP (pd : Nat) (f : Fiber) (d : Dom) : Except Unit Dom :=
  match f.tag, f.dom with
  | some .placement, some h => .ok (domAppendKid d pd h)
  | some .update, some h =>
    .ok (domMap d h fun n => updateDomProperties n f.altAttrs f.attrs)
  | some .deletion, _ => commitDeletionP f pd d
  | _, _ => .ok d

/- `commitWork` over a forest: each fiber is dispatched, then its children
(with the fiber's own DOM as their parent handle — `commitWork` walks
`parent` links to the nearest fiber owning a DOM node), then its following
siblings; the returned trace records `(domParent, fiber)` for every
`commitWork` invocation, in call order. -/

mutual
/-- One `commitWork` invocation covering the fiber and (recursively) its
children. -/
def commitFiberP (pd : Nat) (f : Fiber) (d : Dom) :
    Except Unit (Dom × List (Nat × Fiber)) :=
  match f with
  | .mk ty a dm tg al cs => do
    let d1 ← commitOneP pd (.mk ty a dm tg al cs) d
    let (d2, t2) ← commitForestP (dm.getD pd) cs d1
    .ok (d2, (pd, Fiber.mk ty a dm tg al cs) :: t2)

def commitForestP (pd : Nat) (fs : List Fiber) (d : Dom) :
    Except Unit (Dom × List (Nat × Fiber)) :=
  match fs with
  | [] => .ok (d, [])
  | f :: rest => do
    let (d1, t1) ← commitFiberP pd f d
    let (d2, t2) ← commitForestP pd rest d1
    .ok (d2, t1 ++ t2)
end

/-- `deletions.forEach(commitWork)` (part_001 line 271): each entry is
processed in accumulation order; `commitWork` on a deleted old fiber recurses
through its children and its following old siblings, i.e. over the stored
suffix. -/

def commitDelsP : List (Nat × List Fiber) → Dom → Except Unit (Dom × List (Nat × Fiber))
  | [], d => .ok (d, [])
  | (pd, fs) :: rest, d => do
    let (d1, t1) ← commitForestP pd fs d
    let (d2, t2) ← commitDelsP rest d1
    .ok (d2, t1 ++ t2)

/-- `commitRoot` of part_001 (lines 269-278): deletions first, then the walk
from `wipRoot.child`, then `currentRoot = wipRoot; wipRoot = null`.  The
`deletions` list is not cleared here — only the next `render` resets it — and
effect tags are not cleared either (the committed tree keeps them). -/

def commitRootP (st : EngState) (r : Fiber) : Except Unit (EngState × List (Nat × Fiber)) := do
  let (d1, t1) ← commitDelsP st.deletions st.dom
  let (d2, t2) ← commitForestP rootH r.children d1
  .ok ({ st with dom := d2, committedRoot := some r, wip := none }, t1 ++ t2)

/-- `if (!nextUnitOfWork && wipRoot) { commitRoot() }` (part_001 lines
332-335): the commit runs only when a completed work-in-progress root is
present. -/

def commitGuardP (st : EngState) : Except Unit (EngState × List (Nat × Fiber)) :=
  match st.wip with
  | some (.done r) => commitRootP st r
  | _ => .ok (st, [])

/-- One full `workLoop` activation with no deadline pressure: run every unit
of work, then commit if a completed pass is pending. -/

def workLoopP (st : EngState) : Except Unit (EngState × List (Nat × Fiber)) :=
  commitGuardP (completePass st)

/-! ## Tree predicates used by the statements -/

mutual
/-- Every fiber in the tree carries effect tag `t`. -/
def allTagF (t : Option Tag) (f : Fiber) : Bool :=
  match f with
  | .mk _ _ _ tg _ cs => (tg == t) && allTagL t cs

def allTagL (t : Option Tag) (fs : List Fiber) : Bool :=
  match fs with
  | [] => true
  | f :: rest => allTagF t f && allTagL t rest
end

mutual
/-- The fiber tree mirrors the description tree: same kind, same attributes,
same child list shape in the same order. -/
def matchesF (f : Fiber) (e : Element) : Bool :=
  match f, e with
  | .mk ty a _ _ _ cs, .mk ty' a' cs' => (ty == ty') && (a == a') && matchesL cs cs'

def matchesL (fs : List Fiber) (es : List Element) : Bool :=
  match fs, es with
  | [], [] => true
  | [], _ :: _ => false
  | _ :: _, [] => false
  | f :: fs', e :: es' => matchesF f e && matchesL fs' es'
end

mutual
/-- Every fiber in the tree owns a presentation handle. -/
def domsF (f : Fiber) : Bool :=
  match f with
  | .mk _ _ dm _ _ cs => dm.isSome && domsL cs

def domsL (fs : List Fiber) : Bool :=
  match fs with
  | [] => true
  | f :: rest => domsF f && domsL rest
end

mutual
/-- No fiber in the tree carries the delete disposition. -/
def delFreeF (f : Fiber) : Bool :=
  match f with
  | .mk _ _ _ tg _ cs => (tg != some Tag.deletion) && delFreeL cs

def delFreeL (fs : List Fiber) : Bool :=
  match fs with
  | [] => true
  | f :: rest => delFreeF f && delFreeL rest
end

mutual
/-- Every fiber is a no-op update: update disposition, a presentation handle,
and predecessor attributes equal to its own. -/
def noopF (f : Fiber) : Bool :=
  match f with
  | .mk _ a dm tg al cs =>
    (tg == some Tag.update) && dm.isSome && (((al.map Fiber.attrs).getD []) == a)
      && noopL cs

def noopL (fs : List Fiber) : Bool :=
  match fs with
  | [] => true
  | f :: rest => noopF f && noopL rest
end

mutual
def countFib (f : Fiber) : Nat :=
  match f with
  | .mk _ _ _ _ _ cs => 1 + countFibL cs

def countFibL : List Fiber → Nat
  | [] => 0
  | f :: rest => countFib f + countFibL rest
end

mutual
def countEl (e : Element) : Nat :=
  match e with
  | .mk _ _ cs => 1 + countElL cs

def countElL : List Element → Nat
  | [] => 0
  | e :: rest => countEl e + countElL rest
end

mutual
/-- Pre-order flattening of a fiber tree: node, then children, then following
siblings. -/
def preorderF (f : Fiber) : List Fiber :=
  match f with
  | .mk ty a dm tg al cs => .mk ty a dm tg al cs :: preorderL cs

def preorderL : List Fiber → List Fiber
  | [] => []
  | f :: rest => preorderF f ++ preorderL rest
end

/-- A committed scenario: render `ul[li, li]`, commit, render `ul[li]`,
commit.  The second pass deletes one `li`. -/

def exListA : Element := .mk "ul" [] [.mk "li" [] [], .mk "li" [] []]

def exListB : Element := .mk "ul" [] [.mk "li" [] []]

def afterPass (r : Except Unit (EngState × List (Nat × Fiber))) : EngState :=
  match r with
  | .ok (st, _) => st
  | .error _ => initState

def exState1 : EngState := afterPass (workLoopP (render exListA initState))

def exState2 : EngState := afterPass (workLoopP (render exListB exState1))

def c4Fib : Fiber := Fiber.mk "h1" [] (some 1) (some .placement) none []

def c4Root : Fiber := Fiber.mk "ROOT" [] (some rootH) none none [c4Fib]

def c4St : EngState :=
  { committedRoot := none, wip := some (.done c4Root), deletions := [],
    dom := [(0, emptyNode), (1, emptyNode)], ctr := 2 }

def c4St' : EngState :=
  { committedRoot := some c4Root, wip := none, deletions := [],
    dom := [(0, { emptyNode with kids := [1] }), (1, emptyNode)], ctr := 2 }

def committedTagsView (r : Except Unit (EngState × List (Nat × Fiber))) :
    Option (List (Option Tag)) :=
  match r with
  | .ok (st, _) => st.committedRoot.map fun rt => (preorderL rt.children).map Fiber.tag
  | .error _ => none

/-! ## C6 — element builder -/

/-- The claim's wrapping rule for one flattened child: an object child (a
description node — or a surviving nested array) passes through unchanged; any
other child becomes a text-kind description node carrying the stringified
value and an empty children list. -/

def wrapsChild (raw out : RawVal) : Prop :=
  if isNonNullObject raw then out = raw
  else out = .node "TEXT_ELEMENT" [("nodeValue", .str (jsStringR raw))] []

theorem delAt_succ (o : Fiber) (olds : List Fiber) (els : List Element) (j : Nat) :
    delAt (o :: olds) els (j + 1) = delAt olds els.tail j := by
  cases els with
  | nil => simp [delAt]
  | cons e es => simp [delAt]

theorem reconcile_protos_length (olds : List Fiber) (els : List Element) :
    (reconcile olds els).1.length = els.length := by
  match olds, els with
  | [], [] => simp [reconcile]
  | o :: os, [] =>
    have := reconcile_protos_length os []
    simpa [reconcile] using this
  | [], e :: es => simp [reconcile, reconcile_protos_length [] es]
  | o :: os, e :: es => simp [reconcile, reconcile_protos_length os es]

theorem reconcile_proto_get (olds : List Fiber) (els : List Element) (i : Nat) :
    (reconcile olds els).1.get? i =
      (els.get? i).map (fun e => protoFor (olds.get? i) e) := by
  match olds, els with
  | [], [] => simp [reconcile]
  | o :: os, [] => simp [reconcile, reconcile_protos_length os []]
  | [], e :: es =>
    cases i with
    | zero => simp [reconcile]
    | succ j => simpa [reconcile] using reconcile_proto_get [] es j
  | o :: os, e :: es =>
    cases i with
    | zero => simp [reconcile]
    | succ j => simpa [reconcile] using reconcile_proto_get os es j

theorem reconcile_dels (olds : List Fiber) (els : List Element) :
    (reconcile olds els).2 =
      (List.range (max olds.length els.length)).filterMap (delAt olds els) := by
  match olds, els with
  | [], [] => simp [reconcile]
  | o :: os, [] =>
    have hm : max (o :: os).length ([] : List Element).length = os.length + 1 := by
      simp
    rw [hm, List.range_succ_eq_map]
    simp only [List.filterMap_cons, List.filterMap_map]
    have h0 : delAt (o :: os) [] 0 = some (markDeleted o) := by simp [delAt, sameKind]
    have hs : (delAt (o :: os) []) ∘ Nat.succ = delAt os [] := by
      funext j; simpa using delAt_succ o os [] j
    have hm2 : max os.length ([] : List Element).length = os.length := by simp
    have ih := reconcile_dels os []
    rw [hm2] at ih
    simp [reconcile, h0, hs, ih]
  | [], e :: es =>
    have hm : max ([] : List Fiber).length (e :: es).length = es.length + 1 := by
      simp
    rw [hm, List.range_succ_eq_map]
    simp only [List.filterMap_cons, List.filterMap_map]
    have h0 : delAt [] (e :: es) 0 = none := by simp [delAt]
    have hs : (delAt [] (e :: es)) ∘ Nat.succ = delAt [] es := by
      funext j; simp [delAt]
    have hm2 : max ([] : List Fiber).length es.length = es.length := by simp
    have ih := reconcile_dels [] es
    rw [hm2] at ih
    simp [reconcile, h0, hs, ih]
  | o :: os, e :: es =>
    have hm : max (o :: os).length (e :: es).length = max os.length es.length + 1 := by
      simp [Nat.succ_max_succ]
    rw [hm, List.range_succ_eq_map]
    simp only [List.filterMap_cons, List.filterMap_map]
    have h0 : delAt (o :: os) (e :: es) 0 =
        if e.type == o.type then none else some (markDeleted o) := by
      by_cases h : e.type == o.type <;> simp [delAt, sameKind, h]
    have hs : (delAt (o :: os) (e :: es)) ∘ Nat.succ = delAt os es := by
      funext j; simpa using delAt_succ o os (e :: es) j
    by_cases h : e.type == o.type <;>
      simp [reconcile, h0, hs, h, reconcile_dels os es]

/-- C1: position-indexed reconciliation.  At each index of one
`reconcileChildren` call: matching kinds produce an update fiber that reuses
the old fiber's presentation handle, copies the new child's attributes and
links `alternate` (the predecessor) to the old fiber; a present new child with
no matching old fiber produces a placement fiber with no handle and no
predecessor; and the deletions pushed are exactly the old fibers at positions
with a missing or kind-mismatched new child, marked with the delete
disposition, in index order — old fibers at such positions contribute no fiber
to the new tree (the produced list has one fiber per new child only). -/

theorem C1_reconcile_dispositions (olds : List Fiber) (els : List Element) (i : Nat) :
    ((reconcile olds els).1.length = els.length)
    ∧ (∀ o e, olds.get? i = some o → els.get? i = some e → e.type = o.type →
        (reconcile olds els).1.get? i =
          some ⟨o.type, e.attrs, e.children, o.dom, some o, .update⟩)
    ∧ (∀ e, els.get? i = some e → (∀ o, olds.get? i = some o → e.type ≠ o.type) →
        (reconcile olds els).1.get? i =
          some ⟨e.type, e.attrs, e.children, none, none, .placement⟩)
    ∧ ((reconcile olds els).2 =
        (List.range (max olds.length els.length)).filterMap (delAt olds els)) := by
  refine ⟨reconcile_protos_length olds els, ?_, ?_, reconcile_dels olds els⟩
  · intro o e ho he hty
    rw [reconcile_proto_get, ho, he]
    simp [protoFor, hty]
  · intro e he hmis
    rw [reconcile_proto_get, he]
    cases ho : olds.get? i with
    | none => simp [protoFor]
    | some o =>
      have hne := hmis o ho
      simp [protoFor, hne]

/-- Witness for C1 at a concrete update position. -/

theorem C1_reconcile_dispositions_witness :
    (reconcile [Fiber.mk "h1" [] (some 3) none none []]
        [Element.mk "h1" [("id", JVal.str "x")] []]).1.get? 0 =
      some ⟨"h1", [("id", JVal.str "x")], [], some 3,
            some (Fiber.mk "h1" [] (some 3) none none []), .update⟩ :=
  (C1_reconcile_dispositions [Fiber.mk "h1" [] (some 3) none none []]
      [Element.mk "h1" [("id", JVal.str "x")] []] 0).2.1
    (Fiber.mk "h1" [] (some 3) none none [])
    (Element.mk "h1" [("id", JVal.str "x")] []) rfl rfl rfl

theorem linkCrash_inv (olds : List Fiber) (els : List Element) (idx : Nat)
    (prev : Option Proto) (h : els = [] ∨ idx = 0 ∨ prev.isSome) :
    linkCrash olds els idx prev = false := by
  match olds, els with
  | [], [] => simp [linkCrash]
  | [], e :: es =>
    have h1 : (decide (idx ≠ 0) && prev.isNone) = false := by
      rcases h with h | h | h
      · exact absurd h (by simp)
      · simp [h]
      · cases prev with
        | none => simp at h
        | some p => simp
    rw [linkCrash, h1]
    simp only [Bool.false_or]
    exact linkCrash_inv [] es (idx + 1) _ (Or.inr (Or.inr (by simp)))
  | _ :: os, [] =>
    rw [linkCrash]
    exact linkCrash_inv os [] (idx + 1) none (Or.inl rfl)
  | o :: os, e :: es =>
    have h1 : (decide (idx ≠ 0) && prev.isNone) = false := by
      rcases h with h | h | h
      · exact absurd h (by simp)
      · simp [h]
      · cases prev with
        | none => simp at h
        | some p => simp
    rw [linkCrash, h1]
    simp only [Bool.false_or]
    exact linkCrash_inv os es (idx + 1) _ (Or.inr (Or.inr (by simp)))

/-- C10: the child-linking step never dereferences a null `prevSibling`.
Starting as the loop does (index 0, `prevSibling = null`), an iteration that
reaches index i > 0 with a present new child always finds the previous
iteration's fiber non-null, because null-producing iterations happen only
after the new-children list is exhausted. -/

theorem C10_link_never_null (olds : List Fiber) (els : List Element) :
    linkCrash olds els 0 none = false :=
  linkCrash_inv olds els 0 none (Or.inr (Or.inl rfl))

theorem upFrom_eq_findSome (root : Fiber) (p : List Nat) :
    upFrom root p = (ancestorsOf p).findSome? (siblingOf root) := by
  match p with
  | [] =>
    rw [upFrom, ancestorsOf]
    simp [List.findSome?, siblingOf]
  | a :: as =>
    rw [upFrom, ancestorsOf]
    rw [List.findSome?_cons]
    cases hs : siblingOf root (a :: as) with
    | some q => simp [hs]
    | none => simpa [hs] using upFrom_eq_findSome root (a :: as).dropLast
termination_by p.length
decreasing_by simp [List.length_dropLast]

/-- C5: the scheduler's next-unit rule.  The code's walk-up loop computes
exactly the declarative rule: first child when present, else the first
sibling on the ancestor chain, else no work. -/

theorem C5_next_unit_rule (root : Fiber) (p : List Nat) :
    nextUnitOf root p = nextUnitSpec root p := by
  rw [nextUnitOf, nextUnitSpec]
  cases h : subtreeAt root p with
  | none => rfl
  | some f =>
    by_cases hc : f.children.isEmpty <;> simp [hc, upFrom_eq_findSome root p]

theorem lookup_isSome_of_mem_keys (a : Attrs) (k : String)
    (h : k ∈ a.map Prod.fst) : (a.lookup k).isSome := by
  induction a with
  | nil => simp at h
  | cons e rest ih =>
    by_cases hk : k = e.1
    · simp [List.lookup, hk]
    · have hm : k ∈ rest.map Prod.fst := by
        simp only [List.map_cons, List.mem_cons] at h
        rcases h with h | h
        · exact absurd h hk
        · exact h
      have hb : (k == e.1) = false := by simp [hk]
      simpa [List.lookup, hb] using ih hm

/-- Diffing a props object against itself touches nothing: every filter in
`updateDomProperties` rejects every key. -/

theorem updateDomProperties_self (node : DomNode) (a : Attrs) :
    updateDomProperties node a a = node := by
  have hnew : ∀ k, isNewAt a a k = false := by intro k; simp [isNewAt]
  have hf1 : ((a.map Prod.fst).filter fun k => isProperty k && isGoneAt a k) = [] := by
    rw [List.filter_eq_nil_iff]
    intro k hk
    obtain ⟨v, hv⟩ := Option.isSome_iff_exists.mp (lookup_isSome_of_mem_keys a k hk)
    simp [isGoneAt, hv]
  have hf2 : ((a.map Prod.fst).filter fun k =>
      isEvent k && ((a.lookup k).isNone || isNewAt a a k)) = [] := by
    rw [List.filter_eq_nil_iff]
    intro k hk
    obtain ⟨v, hv⟩ := Option.isSome_iff_exists.mp (lookup_isSome_of_mem_keys a k hk)
    simp [hv, hnew k]
  have hf3 : ((a.map Prod.fst).filter fun k => isProperty k && isNewAt a a k) = [] := by
    rw [List.filter_eq_nil_iff]
    intro k hk
    simp [hnew k]
  have hf4 : ((a.map Prod.fst).filter fun k => isEvent k && isNewAt a a k) = [] := by
    rw [List.filter_eq_nil_iff]
    intro k hk
    simp [hnew k]
  simp only [updateDomProperties, hf1, hf2, hf3, hf4, List.foldl_nil]

/-! ## C7 — guarded deletion -/

/-- C7 (amended): in the `gemini.html` variant, removal of a deleted fiber's
presentation node is guarded by `domParent.contains(fiber.dom)`: when the node
is not present in the resolved parent handle the removal silently does
nothing — the presentation tree is returned unchanged and no error is raised.
The `part_001` variant has no such guard and its `removeChild` throws in that
situation (see the counterexample). -/

theorem C7_guarded_deletion (f : Fiber) (pd : Nat) (d : Dom) (h : Nat)
    (hdom : f.dom = some h) (habs : domHasKid d pd h = false) :
    commitDeletionG f pd d = d := by
  match f with
  | .mk ty a dm tg al cs =>
    simp only [Fiber.dom] at hdom
    subst hdom
    rw [commitDeletionG, habs]
    simp

/-- Witness for C7 at a concrete absent node. -/

theorem C7_guarded_deletion_witness :
    commitDeletionG (Fiber.mk "li" [] (some 5) (some .deletion) none []) 0
      [(0, emptyNode)] = [(0, emptyNode)] :=
  C7_guarded_deletion (Fiber.mk "li" [] (some 5) (some .deletion) none []) 0
    [(0, emptyNode)] 5 rfl (by decide)

/-- Counterexample to C7 as stated: `part_001`'s `commitDeletion` removes
unconditionally, so deleting a fiber whose node is not present in the parent
handle is an error, not a silent no-op. -/

theorem C7_counterexample :
    commitDeletionP (Fiber.mk "li" [] (some 5) (some .deletion) none []) 0
      [(0, emptyNode)] = .error () := rfl

/-! ## C8 — reentrant render -/

/-- C8 (amended): a render call issued while a pass is in flight is not
rejected — `render` performs no check at all.  It silently starts a new pass:
the in-flight `wipRoot` is overwritten with a fresh root whose `alternate` is
`committedRoot`, `deletions` is reset, and the committed tree, live DOM and
handle counter pass through untouched; the in-flight fields have no influence
on the result. -/

theorem C8_render_overwrites (el : Element) (st : EngState) :
    (render el st).wip = some (.fresh [el] st.committedRoot)
    ∧ (render el st).deletions = []
    ∧ (render el st).committedRoot = st.committedRoot
    ∧ (render el st).dom = st.dom
    ∧ (render el st).ctr = st.ctr
    ∧ ∀ st2 : EngState, st2.committedRoot = st.committedRoot → st2.dom = st.dom →
        st2.ctr = st.ctr → render el st2 = render el st := by
  refine ⟨rfl, rfl, rfl, rfl, rfl, ?_⟩
  intro st2 h1 h2 h3
  cases st with
  | mk c w dl dm ct =>
    cases st2 with
    | mk c2 w2 dl2 dm2 ct2 =>
      simp only at h1 h2 h3
      simp [render, h1, h2, h3]

/-- Witness for C8: two states that differ only in their in-flight pass yield
the same render result. -/

theorem C8_render_overwrites_witness :
    render (Element.mk "div" [] [])
        { committedRoot := none,
          wip := some (.fresh [Element.mk "span" [] []] none),
          deletions := [(0, [Fiber.mk "li" [] (some 9) (some .deletion) none []])],
          dom := [(rootH, emptyNode)], ctr := 1 }
      = render (Element.mk "div" [] [])
          { committedRoot := none, wip := none, deletions := [],
            dom := [(rootH, emptyNode)], ctr := 1 } :=
  (C8_render_overwrites (Element.mk "div" [] [])
      { committedRoot := none, wip := none, deletions := [],
        dom := [(rootH, emptyNode)], ctr := 1 }).2.2.2.2.2
    { committedRoot := none,
      wip := some (.fresh [Element.mk "span" [] []] none),
      deletions := [(0, [Fiber.mk "li" [] (some 9) (some .deletion) none []])],
      dom := [(rootH, emptyNode)], ctr := 1 } rfl rfl rfl

/-- Counterexample to C8 as stated: with a pass in flight (`wipRoot` present,
commit not yet run), `render` neither rejects the call nor leaves the
in-flight state alone — it replaces the pending pass with a new one and
clears the in-flight deletion list. -/

theorem C8_counterexample :
    (render (Element.mk "div" [] [])
        { committedRoot := none,
          wip := some (.fresh [Element.mk "span" [] []] none),
          deletions := [(0, [Fiber.mk "li" [] (some 9) (some .deletion) none []])],
          dom := [(rootH, emptyNode)], ctr := 1 }).wip
        = some (.fresh [Element.mk "div" [] []] none)
    ∧ (render (Element.mk "div" [] [])
        { committedRoot := none,
          wip := some (.fresh [Element.mk "span" [] []] none),
          deletions := [(0, [Fiber.mk "li" [] (some 9) (some .deletion) none []])],
          dom := [(rootH, emptyNode)], ctr := 1 }).deletions = []
    ∧ ((some (Wip.fresh [Element.mk "span" [] []] none) : Option Wip)
        ≠ some (.fresh [Element.mk "div" [] []] none)) := by
  refine ⟨rfl, rfl, ?_⟩
  intro h
  injection h with h
  injection h with h1 h2
  injection h1 with h3 h4
  injection h3 with h5 h6
  exact absurd h5 (by decide)

/-! ## C9 — commit idempotence -/

/-- C9 (amended): once a pass has committed, `wipRoot` is `none`, so a second
activation of the work loop has no unit of work and the commit guard skips
`commitRoot` entirely: the state — fiber trees, live presentation tree, and
the (not yet cleared) deletion list — passes through unchanged and no fiber
is processed (empty trace).  `pendingDeletions`, however, is reset only by
the next `render` call, not by commit, so "no pending deletions" does not
hold of the state itself (see the counterexample). -/

theorem C9_second_commit_noop (st : EngState) (h : st.wip = none) :
    workLoopP st = .ok (st, []) := by
  rw [workLoopP, completePass, h]
  rw [commitGuardP, h]

/-- Witness for C9 on a committed state that still carries a consumed
deletion entry. -/

theorem C9_second_commit_noop_witness :
    workLoopP
        { committedRoot := some (Fiber.mk "ROOT" [] (some rootH) none none []),
          wip := none,
          deletions := [(0, [Fiber.mk "li" [] (some 3) (some .deletion) none []])],
          dom := [(rootH, emptyNode)], ctr := 4 }
      = .ok
          ({ committedRoot := some (Fiber.mk "ROOT" [] (some rootH) none none []),
             wip := none,
             deletions := [(0, [Fiber.mk "li" [] (some 3) (some .deletion) none []])],
             dom := [(rootH, emptyNode)], ctr := 4 }, []) :=
  C9_second_commit_noop _ rfl

/-- Counterexample to C9 as stated: after the second scenario commit the pass
is fully committed (`wipRoot` is `none`) yet the pendingDeletions list is not
empty — commit consumed but did not clear it; only the next `render` does.
The claimed "there is no pending deletions" fails on the code. -/

theorem C9_counterexample :
    exState2.wip = none ∧ exState2.committedRoot.isSome = true
      ∧ exState2.deletions.length = 1 := by
  refine ⟨rfl, rfl, rfl⟩

/-! ## C4 — commit order -/

theorem completePass_done (st : EngState) (r : Fiber) (h : st.wip = some (.done r)) :
    completePass st = st := by
  rw [completePass, h]

mutual
theorem commitFiberP_visits (pd : Nat) (f : Fiber) (d d' : Dom)
    (t : List (Nat × Fiber)) (h : commitFiberP pd f d = .ok (d', t)) :
    t.map Prod.snd = preorderF f := by
  match f with
  | .mk ty a dm tg al cs =>
    rw [commitFiberP] at h
    cases h1 : commitOneP pd (.mk ty a dm tg al cs) d with
    | error e => rw [h1] at h; simp [Bind.bind, Except.bind] at h
    | ok d1 =>
      rw [h1] at h
      simp only [Bind.bind, Except.bind] at h
      cases h2 : commitForestP (dm.getD pd) cs d1 with
      | error e => rw [h2] at h; simp at h
      | ok pr =>
        cases pr with
        | mk d2 t2 =>
          rw [h2] at h
          simp only at h
          injection h with h
          injection h with ha hb
          subst hb
          simp only [List.map_cons, preorderF]
          exact congrArg (List.cons _) (commitForestP_visits _ cs d1 d2 t2 h2)

theorem commitForestP_visits (pd : Nat) (fs : List Fiber) (d d' : Dom)
    (t : List (Nat × Fiber)) (h : commitForestP pd fs d = .ok (d', t)) :
    t.map Prod.snd = preorderL fs := by
  match fs with
  | [] =>
    rw [commitForestP] at h
    injection h with h
    injection h with ha hb
    subst hb
    simp [preorderL]
  | f :: rest =>
    rw [commitForestP] at h
    cases h1 : commitFiberP pd f d with
    | error e => rw [h1] at h; simp [Bind.bind, Except.bind] at h
    | ok pr1 =>
      cases pr1 with
      | mk d1 t1 =>
        rw [h1] at h
        simp only [Bind.bind, Except.bind] at h
        cases h2 : commitForestP pd rest d1 with
        | error e => rw [h2] at h; simp at h
        | ok pr2 =>
          cases pr2 with
          | mk d2 t2 =>
            rw [h2] at h
            simp only at h
            injection h with h
            injection h with ha hb
            subst hb
            rw [List.map_append, preorderL]
            rw [commitFiberP_visits pd f d d1 t1 h1,
                commitForestP_visits pd rest d1 d2 t2 h2]
end

theorem commitDelsP_visits (ds : List (Nat × List Fiber)) (d d' : Dom)
    (t : List (Nat × Fiber)) (h : commitDelsP ds d = .ok (d', t)) :
    t.map Prod.snd = ds.flatMap fun e => preorderL e.2 := by
  match ds with
  | [] =>
    rw [commitDelsP] at h
    injection h with h
    injection h with ha hb
    subst hb
    simp
  | (pd, fs) :: rest =>
    rw [commitDelsP] at h
    cases h1 : commitForestP pd fs d with
    | error e => rw [h1] at h; simp [Bind.bind, Except.bind] at h
    | ok pr1 =>
      cases pr1 with
      | mk d1 t1 =>
        rw [h1] at h
        simp only [Bind.bind, Except.bind] at h
        cases h2 : commitDelsP rest d1 with
        | error e => rw [h2] at h; simp at h
        | ok pr2 =>
          cases pr2 with
          | mk d2 t2 =>
            rw [h2] at h
            simp only at h
            injection h with h
            injection h with ha hb
            subst hb
            rw [List.map_append, List.flatMap_cons]
            rw [commitForestP_visits pd fs d d1 t1 h1,
                commitDelsP_visits rest d1 d2 t2 h2]

/-- C4 (amended): a successful commit of a completed pass performs, in this
order: first every `pendingDeletions` entry is processed in accumulation
order (the deletion-phase trace is the concatenation of the entries' visit
sequences, entry by entry), then the new fiber tree is walked from
`pendingRoot`'s child list in pre-order applying each fiber's disposition,
and finally `committedRoot` is set to the pending root and `pendingRoot` to
`none`.  Dispositions are NOT cleared in the `part_001` variant — the
committed tree is the pending root exactly as built, tags included (the
clearing step exists only in `gemini.html`; see the counterexample). -/

theorem C4_commit_order (st : EngState) (r : Fiber) (hw : st.wip = some (.done r))
    (st' : EngState) (tr : List (Nat × Fiber)) (hok : workLoopP st = .ok (st', tr)) :
    ∃ d1 t1 d2 t2,
      commitDelsP st.deletions st.dom = .ok (d1, t1)
      ∧ commitForestP rootH r.children d1 = .ok (d2, t2)
      ∧ tr = t1 ++ t2
      ∧ t1.map Prod.snd = (st.deletions.flatMap fun e => preorderL e.2)
      ∧ t2.map Prod.snd = preorderL r.children
      ∧ st' = { st with dom := d2, committedRoot := some r, wip := none } := by
  rw [workLoopP, completePass_done st r hw] at hok
  rw [commitGuardP, hw] at hok
  unfold commitRootP at hok
  cases h1 : commitDelsP st.deletions st.dom with
  | error e => rw [h1] at hok; simp [Bind.bind, Except.bind] at hok
  | ok pr1 =>
    cases pr1 with
    | mk d1 t1 =>
      rw [h1] at hok
      simp only [Bind.bind, Except.bind] at hok
      cases h2 : commitForestP rootH r.children d1 with
      | error e => rw [h2] at hok; simp at hok
      | ok pr2 =>
        cases pr2 with
        | mk d2 t2 =>
          rw [h2] at hok
          simp only at hok
          injection hok with hok
          injection hok with ha hb
          exact ⟨d1, t1, d2, t2, rfl, h2, hb.symm,
                 commitDelsP_visits _ _ _ _ h1,
                 commitForestP_visits _ _ _ _ _ h2, ha.symm⟩

/-- Witness for C4 on a concrete completed pass. -/

theorem C4_commit_order_witness :
    ∃ d1 t1 d2 t2,
      commitDelsP c4St.deletions c4St.dom = .ok (d1, t1)
      ∧ commitForestP rootH c4Root.children d1 = .ok (d2, t2)
      ∧ ([(rootH, c4Fib)] : List (Nat × Fiber)) = t1 ++ t2
      ∧ t1.map Prod.snd = (c4St.deletions.flatMap fun e => preorderL e.2)
      ∧ t2.map Prod.snd = preorderL c4Root.children
      ∧ c4St' = { c4St with dom := d2, committedRoot := some c4Root, wip := none } :=
  C4_commit_order c4St c4Root rfl c4St' [(rootH, c4Fib)] rfl

/-- Counterexample to C4 as stated: in `part_001` the walk does not clear the
visited fibers' dispositions — after rendering and committing a single `h1`,
the committed tree still carries the `placement` disposition instead of
`none`. -/

theorem C4_counterexample :
    committedTagsView (workLoopP (render (.mk "h1" [] []) initState))
      = some [some Tag.placement] := rfl

/-! ## C2 — first render -/

mutual
theorem runFiber_fresh (e : Element) (ctr : Nat) (d : Dom) :
    (runFiber none e ctr d).2.2.2 = []
    ∧ allTagF (some Tag.placement) (runFiber none e ctr d).1 = true
    ∧ matchesF (runFiber none e ctr d).1 e = true
    ∧ domsF (runFiber none e ctr d).1 = true := by
  match e with
  | .mk ty a cs =>
    have ih := runKids_fresh cs (ctr + 1) (createDom a ctr d)
    simp only [runFiber, protoFor, allocDom, levelDels, Element.type,
      Element.attrs, Element.children]
    refine ⟨by simp [ih.1], ?_, ?_, ?_⟩
    · simp [allTagF, ih.2.1]
    · simp [matchesF, Element.type, Element.attrs, Element.children, ih.2.2.1]
    · simp [domsF, ih.2.2.2]

theorem runKids_fresh (els : List Element) (ctr : Nat) (d : Dom) :
    (runKids [] els ctr d).2.2.2 = []
    ∧ allTagL (some Tag.placement) (runKids [] els ctr d).1 = true
    ∧ matchesL (runKids [] els ctr d).1 els = true
    ∧ domsL (runKids [] els ctr d).1 = true := by
  match els with
  | [] => simp [runKids, allTagL, matchesL, domsL]
  | e :: es =>
    have ihf := runFiber_fresh e ctr d
    have ihl := runKids_fresh es (runFiber none e ctr d).2.1
      (runFiber none e ctr d).2.2.1
    simp only [runKids, List.head?_nil, List.tail_nil]
    refine ⟨by simp [ihf.1, ihl.1], ?_, ?_, ?_⟩
    · simp [allTagL, ihf.2.1, ihl.2.1]
    · simp [matchesL, ihf.2.2.1, ihl.2.2.1]
    · simp [domsL, ihf.2.2.2, ihl.2.2.2]
end

mutual
theorem matchesF_count (f : Fiber) (e : Element) (h : matchesF f e = true) :
    countFib f = countEl e := by
  match f, e with
  | .mk ty a dm tg al cs, .mk ty' a' cs' =>
    rw [matchesF] at h
    simp only [Bool.and_eq_true] at h
    rw [countFib, countEl, matchesL_count cs cs' h.2]

theorem matchesL_count (fs : List Fiber) (es : List Element)
    (h : matchesL fs es = true) : countFibL fs = countElL es := by
  match fs, es with
  | [], [] => rfl
  | f :: fs', e :: es' =>
    rw [matchesL] at h
    simp only [Bool.and_eq_true] at h
    rw [countFibL, countElL, matchesF_count f e h.1, matchesL_count fs' es' h.2]
  | [], e :: es' => exact absurd h (by rw [matchesL]; simp)
  | f :: fs', [] => exact absurd h (by rw [matchesL]; simp)
end

/-- C2: rendering any description tree `D` with no previously committed tree
(`committedRoot` is `none`, as in `initState`) completes the pass with
exactly one fiber per node of `D`: the work-in-progress root holds a single
child fiber that mirrors `D`'s shape, kinds, attributes and left-to-right
child order, every produced fiber carries the insert (`placement`)
disposition, and no deletion is recorded. -/

theorem C2_first_render_all_placements (D : Element) :
    (completePass (render D initState)).deletions = []
    ∧ allTagL (some Tag.placement) (runKids [] [D] 1 initDom).1 = true
    ∧ matchesL (runKids [] [D] 1 initDom).1 [D] = true
    ∧ countFibL (runKids [] [D] 1 initDom).1 = countEl D
    ∧ (completePass (render D initState)).wip
        = some (.done (Fiber.mk "ROOT" [] (some rootH) none none
            (runKids [] [D] 1 initDom).1)) := by
  have ih := runKids_fresh [D] 1 initDom
  have hc : countFibL (runKids [] [D] 1 initDom).1 = countEl D := by
    have := matchesL_count _ _ ih.2.2.1
    rw [this, countElL, countElL]
    omega
  refine ⟨?_, ih.2.1, ih.2.2.1, hc, ?_⟩
  · simp [completePass, render, initState, runChildren, levelDels, ih.1]
  · simp [completePass, render, initState, runChildren, levelDels]

/-! ## C3 — identical re-render -/

theorem levelDels_matches (pd : Nat) (olds : List Fiber) (els : List Element)
    (h : matchesL olds els = true) : levelDels pd olds els = (olds, []) := by
  match olds, els with
  | [], [] => rfl
  | [], e :: es => exact absurd h (by rw [matchesL]; simp)
  | o :: os, [] => exact absurd h (by rw [matchesL]; simp)
  | .mk ty a dm tg al cs :: os, .mk ty' a' cs' :: es =>
    rw [matchesL, matchesF] at h
    simp only [Bool.and_eq_true, beq_iff_eq] at h
    have ih := levelDels_matches pd os es h.2
    rw [levelDels]
    simp only [List.tail_cons, List.head?_cons, ih]
    have hsk : sameKind (some (.mk ty a dm tg al cs))
        (some (Element.mk ty' a' cs')) = true := by
      simp [sameKind, Element.type, Fiber.type, h.1.1.1]
    simp [hsk]

mutual
theorem runFiber_same (o : Fiber) (e : Element) (ctr : Nat) (d : Dom)
    (hm : matchesF o e = true) (hd : domsF o = true) :
    ∃ f', runFiber (some o) e ctr d = (f', ctr, d, [])
      ∧ noopF f' = true ∧ matchesF f' e = true
      ∧ allTagF (some Tag.update) f' = true ∧ domsF f' = true := by
  match o, e with
  | .mk ty a dm tg al cs, .mk ty' a' cs' =>
    rw [matchesF] at hm
    rw [domsF] at hd
    simp only [Bool.and_eq_true, beq_iff_eq] at hm hd
    obtain ⟨hh, hdm⟩ := Option.isSome_iff_exists.mp hd.1
    obtain ⟨ks', hks, hnoop, hmat, htag, hdoms⟩ :=
      runKids_same cs cs' ctr d hm.2 hd.2
    refine ⟨.mk ty a' (some hh) (some Tag.update) (some (.mk ty a dm tg al cs)) ks',
      ?_, ?_, ?_, ?_, ?_⟩
    · rw [runFiber]
      have hp : protoFor (some (.mk ty a dm tg al cs)) (.mk ty' a' cs')
          = ⟨ty, a', cs', dm, some (.mk ty a dm tg al cs), .update⟩ := by
        simp [protoFor, Element.type, Fiber.type, Element.attrs, Element.children,
          Fiber.dom, hm.1.1]
      rw [hp]
      simp only [allocDom, hdm, Fiber.children]
      rw [levelDels_matches hh cs cs' hm.2]
      simp [hks]
    · rw [noopF]
      simp [Fiber.attrs, hm.1.2, hnoop]
    · rw [matchesF]
      simp [hm.1.1, hmat]
    · rw [allTagF]
      simp [htag]
    · rw [domsF]
      simp [hdoms]

theorem runKids_same (olds : List Fiber) (els : List Element) (ctr : Nat) (d : Dom)
    (hm : matchesL olds els = true) (hd : domsL olds = true) :
    ∃ fs', runKids olds els ctr d = (fs', ctr, d, [])
      ∧ noopL fs' = true ∧ matchesL fs' els = true
      ∧ allTagL (some Tag.update) fs' = true ∧ domsL fs' = true := by
  match olds, els with
  | [], [] => exact ⟨[], by rw [runKids], rfl, rfl, rfl, rfl⟩
  | [], e :: es => exact absurd hm (by rw [matchesL]; simp)
  | o :: os, [] => exact absurd hm (by rw [matchesL]; simp)
  | o :: os, e :: es =>
    rw [matchesL] at hm
    rw [domsL] at hd
    simp only [Bool.and_eq_true] at hm hd
    obtain ⟨f', hf, hnoopf, hmatf, htagf, hdomf⟩ :=
      runFiber_same o e ctr d hm.1 hd.1
    obtain ⟨fs', hfs, hnoopl, hmatl, htagl, hdoml⟩ :=
      runKids_same os es ctr d hm.2 hd.2
    refine ⟨f' :: fs', ?_, ?_, ?_, ?_, ?_⟩
    · rw [runKids]
      simp only [List.head?_cons, List.tail_cons, hf, hfs]
      rfl
    · rw [noopL]; simp [hnoopf, hnoopl]
    · rw [matchesL]; simp [hmatf, hmatl]
    · rw [allTagL]; simp [htagf, htagl]
    · rw [domsL]; simp [hdomf, hdoml]
end

theorem domMap_updSelf (d : Dom) (h : Nat) (a : Attrs) :
    domMap d h (fun n => updateDomProperties n a a) = d := by
  rw [domMap]
  have hcong : ∀ e : Nat × DomNode,
      (if e.1 = h then (e.1, updateDomProperties e.2 a a) else e) = e := by
    intro e
    rcases e with ⟨k, v⟩
    by_cases he : k = h <;> simp [he, updateDomProperties_self]
  calc d.map (fun e => if e.1 = h then (e.1, updateDomProperties e.2 a a) else e)
      = d.map id := List.map_congr_left fun e _ => hcong e
    _ = d := List.map_id d

/-- `commitWork` dispatch succeeds on any non-deletion fiber. -/

theorem commitOneP_ok (pd : Nat) (f : Fiber) (d : Dom)
    (h : f.tag ≠ some Tag.deletion) : ∃ d1, commitOneP pd f d = .ok d1 := by
  match htg : f.tag, hdm : f.dom with
  | some Tag.placement, some hh => exact ⟨_, by rw [commitOneP, htg, hdm]⟩
  | some Tag.update, some hh => exact ⟨_, by rw [commitOneP, htg, hdm]⟩
  | some Tag.deletion, _ => exact absurd htg h
  | some Tag.placement, none => exact ⟨_, by rw [commitOneP, htg, hdm]⟩
  | some Tag.update, none => exact ⟨_, by rw [commitOneP, htg, hdm]⟩
  | none, _ => exact ⟨_, by rw [commitOneP, htg]⟩

mutual
theorem commitFiberP_delFree (pd : Nat) (f : Fiber) (d : Dom)
    (h : delFreeF f = true) :
    ∃ d' t, commitFiberP pd f d = .ok (d', t) := by
  match f with
  | .mk ty a dm tg al cs =>
    rw [delFreeF] at h
    simp only [Bool.and_eq_true, bne_iff_ne] at h
    obtain ⟨d1, hd1⟩ := commitOneP_ok pd (.mk ty a dm tg al cs) d (by
      simpa [Fiber.tag] using h.1)
    obtain ⟨d2, t2, hrec⟩ := commitForestP_delFree (dm.getD pd) cs d1 h.2
    refine ⟨d2, (pd, .mk ty a dm tg al cs) :: t2, ?_⟩
    rw [commitFiberP, hd1]
    simp only [Bind.bind, Except.bind, hrec]

theorem commitForestP_delFree (pd : Nat) (fs : List Fiber) (d : Dom)
    (h : delFreeL fs = true) :
    ∃ d' t, commitForestP pd fs d = .ok (d', t) := by
  match fs with
  | [] => exact ⟨d, [], by rw [commitForestP]⟩
  | f :: rest =>
    rw [delFreeL] at h
    simp only [Bool.and_eq_true] at h
    obtain ⟨d1, t1, h1⟩ := commitFiberP_delFree pd f d h.1
    obtain ⟨d2, t2, h2⟩ := commitForestP_delFree pd rest d1 h.2
    refine ⟨d2, t1 ++ t2, ?_⟩
    rw [commitForestP, h1]
    simp only [Bind.bind, Except.bind, h2]
end

mutual
theorem allTagF_placement_delFree (f : Fiber)
    (h : allTagF (some Tag.placement) f = true) : delFreeF f = true := by
  match f with
  | .mk ty a dm tg al cs =>
    rw [allTagF] at h
    simp only [Bool.and_eq_true, beq_iff_eq] at h
    rw [delFreeF]
    simp [h.1, allTagL_placement_delFree cs h.2]

theorem allTagL_placement_delFree (fs : List Fiber)
    (h : allTagL (some Tag.placement) fs = true) : delFreeL fs = true := by
  match fs with
  | [] => rfl
  | f :: rest =>
    rw [allTagL] at h
    simp only [Bool.and_eq_true] at h
    rw [delFreeL]
    simp [allTagF_placement_delFree f h.1, allTagL_placement_delFree rest h.2]
end

mutual
theorem commitFiberP_noop (pd : Nat) (f : Fiber) (d : Dom)
    (h : noopF f = true) : ∃ t, commitFiberP pd f d = .ok (d, t) := by
  match f with
  | .mk ty a dm tg al cs =>
    rw [noopF] at h
    simp only [Bool.and_eq_true, beq_iff_eq] at h
    obtain ⟨hh, hdm⟩ := Option.isSome_iff_exists.mp h.1.1.2
    have halt : Fiber.altAttrs (.mk ty a dm tg al cs) = a := by
      rw [← h.1.2]
      cases al with
      | none => rfl
      | some x => rfl
    have h1 : commitOneP pd (.mk ty a dm tg al cs) d = .ok d := by
      rw [commitOneP]
      have htg : (Fiber.mk ty a dm tg al cs).tag = some Tag.update := h.1.1.1
      have hdm' : (Fiber.mk ty a dm tg al cs).dom = some hh := hdm
      rw [htg, hdm']
      rw [halt]
      have hat : (Fiber.mk ty a dm tg al cs).attrs = a := rfl
      rw [hat]
      simp [domMap_updSelf]
    obtain ⟨t2, hrec⟩ := commitForestP_noop (dm.getD pd) cs d h.2
    refine ⟨(pd, .mk ty a dm tg al cs) :: t2, ?_⟩
    rw [commitFiberP, h1]
    simp only [Bind.bind, Except.bind, hrec]

theorem commitForestP_noop (pd : Nat) (fs : List Fiber) (d : Dom)
    (h : noopL fs = true) : ∃ t, commitForestP pd fs d = .ok (d, t) := by
  match fs with
  | [] => exact ⟨[], by rw [commitForestP]⟩
  | f :: rest =>
    rw [noopL] at h
    simp only [Bool.and_eq_true] at h
    obtain ⟨t1, h1⟩ := commitFiberP_noop pd f d h.1
    obtain ⟨t2, h2⟩ := commitForestP_noop pd rest d h.2
    refine ⟨t1 ++ t2, ?_⟩
    rw [commitForestP, h1]
    simp only [Bind.bind, Except.bind, h2]
end

/-- C3: rendering a description tree `D` from scratch, committing, and
rendering the identical `D` again yields a second pass whose fibers are all
update-dispositioned (no placement, no deletion — the pass records no
deletion at all), whose reconciler reuses every presentation handle, and
whose commit leaves the live presentation tree — in particular every node's
attributes — exactly as the first commit left it. -/

theorem C3_idempotent_rerender (D : Element) :
    ∃ st1 tr1 r2 st2 tr2,
      workLoopP (render D initState) = .ok (st1, tr1)
      ∧ (completePass (render D st1)).deletions = []
      ∧ (completePass (render D st1)).wip = some (.done r2)
      ∧ allTagL (some Tag.update) r2.children = true
      ∧ workLoopP (render D st1) = .ok (st2, tr2)
      ∧ st2.dom = st1.dom := by
  have ihf := runKids_fresh [D] 1 initDom
  have hA : completePass (render D initState)
      = { committedRoot := none,
          wip := some (.done (Fiber.mk "ROOT" [] (some rootH) none none
            (runKids [] [D] 1 initDom).1)),
          deletions := [], dom := (runKids [] [D] 1 initDom).2.2.1,
          ctr := (runKids [] [D] 1 initDom).2.1 } := by
    simp [completePass, render, initState, runChildren, levelDels, ihf.1]
  obtain ⟨d2, t2, hforest⟩ := commitForestP_delFree rootH
    (runKids [] [D] 1 initDom).1 (runKids [] [D] 1 initDom).2.2.1
    (allTagL_placement_delFree _ ihf.2.1)
  have hB : workLoopP (render D initState)
      = .ok ({ committedRoot := some (Fiber.mk "ROOT" [] (some rootH) none none
                 (runKids [] [D] 1 initDom).1),
               wip := none, deletions := [], dom := d2,
               ctr := (runKids [] [D] 1 initDom).2.1 }, t2) := by
    rw [workLoopP, hA]
    rw [commitGuardP]
    unfold commitRootP
    rw [commitDelsP]
    simp only [Bind.bind, Except.bind]
    rw [Fiber.children, hforest]
    simp
  obtain ⟨fs2, hrk, hnoop2, hmat2, htag2, hdoms2⟩ :=
    runKids_same (runKids [] [D] 1 initDom).1 [D]
      (runKids [] [D] 1 initDom).2.1 d2 ihf.2.2.1 ihf.2.2.2
  have hC : completePass (render D
      { committedRoot := some (Fiber.mk "ROOT" [] (some rootH) none none
          (runKids [] [D] 1 initDom).1),
        wip := none, deletions := [], dom := d2,
        ctr := (runKids [] [D] 1 initDom).2.1 })
      = { committedRoot := some (Fiber.mk "ROOT" [] (some rootH) none none
            (runKids [] [D] 1 initDom).1),
          wip := some (.done (Fiber.mk "ROOT" [] (some rootH) none
            (some (Fiber.mk "ROOT" [] (some rootH) none none
              (runKids [] [D] 1 initDom).1)) fs2)),
          deletions := [], dom := d2,
          ctr := (runKids [] [D] 1 initDom).2.1 } := by
    rw [render, completePass]
    simp only [Fiber.children, runChildren,
      levelDels_matches rootH (runKids [] [D] 1 initDom).1 [D] ihf.2.2.1, hrk]
    simp
  obtain ⟨t3, hfor2⟩ := commitForestP_noop rootH fs2 d2 hnoop2
  have hD : workLoopP (render D
      { committedRoot := some (Fiber.mk "ROOT" [] (some rootH) none none
          (runKids [] [D] 1 initDom).1),
        wip := none, deletions := [], dom := d2,
        ctr := (runKids [] [D] 1 initDom).2.1 })
      = .ok ({ committedRoot := some (Fiber.mk "ROOT" [] (some rootH) none
                 (some (Fiber.mk "ROOT" [] (some rootH) none none
                   (runKids [] [D] 1 initDom).1)) fs2),
               wip := none, deletions := [], dom := d2,
               ctr := (runKids [] [D] 1 initDom).2.1 }, t3) := by
    rw [workLoopP, hC]
    rw [commitGuardP]
    unfold commitRootP
    rw [commitDelsP]
    simp only [Bind.bind, Except.bind]
    rw [Fiber.children, hfor2]
    simp
  refine ⟨_, t2, Fiber.mk "ROOT" [] (some rootH) none
      (some (Fiber.mk "ROOT" [] (some rootH) none none
        (runKids [] [D] 1 initDom).1)) fs2, _, t3,
    hB, ?_, ?_, ?_, hD, rfl⟩
  · rw [hC]
  · rw [hC]
  · rw [Fiber.children]
    exact htag2

theorem forall2_wrapsChild (l : List RawVal) :
    List.Forall₂ wrapsChild l
      (l.map fun c => if isNonNullObject c then c else createTextElementG c) := by
  induction l with
  | nil => simp
  | cons a rest ih =>
    refine List.Forall₂.cons ?_ ih
    by_cases ha : isNonNullObject a <;> simp [wrapsChild, ha, createTextElementG]

/-- C6 (amended): in the `gemini.html` builder, children arrays are flattened
one level and then every remaining child is wrapped per `wrapsChild`: raw
primitives (and `null`) become text-kind description nodes carrying the
stringified value and an empty children list, objects pass through.  The
`part_001` builder does neither (see the counterexample). -/

theorem C6_builder_wraps (type : String) (props : List (String × RawVal))
    (children : List RawVal) :
    ∃ outs, createElementG type props children = .node type props outs
      ∧ List.Forall₂ wrapsChild (flat1 children) outs := by
  refine ⟨_, rfl, forall2_wrapsChild (flat1 children)⟩

/-- Counterexample to C6 as stated: `part_001`'s `createElement` wraps the
primitive `5` without stringifying it (`nodeValue` stays the number `5`, not
the string `"5"`), and an array child is neither flattened nor wrapped — it
survives as an array in the children list. -/

theorem C6_counterexample :
    createElementP "div" [] [.num 5] =
      .node "div" [] [.node "TEXT_ELEMENT" [("nodeValue", .num 5)] []]
    ∧ (RawVal.num 5 ≠ .str "5")
    ∧ createElementP "div" [] [.arr [.node "p" [] []]] =
      .node "div" [] [.arr [.node "p" [] []]] := by
  refine ⟨rfl, ?_, rfl⟩
  intro h
  exact RawVal.noConfusion h
